import Mathlib

/-!
# Verification of the ascii-star core against its specification

Shallow embedding of the core of the `ascii-star` Ultrastar CLI player:

* `src/pitch.rs` — the autocorrelation pitch estimator
  (`do_autocorrelation_with_freq`, `get_note_wieghts`, `get_dominant_note`);
* `src/main.rs` / `src/draw.rs` — the beat clock, the per-note highlight
  classification (`line_to_corlor_str`) and the note-line layout
  (`draw_notelines`).

Modelling conventions:

* Rust `f32`/`f64` values are modelled as `ℚ`.  The one place where IEEE
  non-finite values are observable in the program — the score
  `1.0 - accum_dist / samples.len()` on an *empty* buffer, where `0.0/0.0`
  is NaN — is modelled by giving scores the type `Option ℚ`, with `none`
  standing for the NaN score and every comparison against `none` false,
  exactly as IEEE `>` behaves on NaN.
* Rust saturating casts `as usize` / `as u16` on nonnegative floats truncate,
  i.e. take the floor; negative values clamp to `0`.  This is modelled with
  `Int.toNat ∘ Int.floor`.
* The external crate `pitch_calc` (not part of this repository) is modelled
  from its documented behaviour: a `LetterOctave` is a letter plus octave,
  `to_step` is `octave * 12 + semitone-of-letter` (the absolute offset of the
  step scale cancels everywhere it is used), `Step::to_letter_octave` picks
  the sharp spelling, and `to_hz` is `440 · 2^((step - step(A4))/12)`,
  tabulated here as rational values (4 decimal places) for the 45 steps the
  program scans.
-/

namespace AsciiStar

/-- The note letters of the external `pitch_calc` crate (17 variants,
enharmonics distinct), as matched on by `letter_to_pos` in `src/main.rs`. -/
inductive Letter
  | C | Csh | Db | D | Dsh | Eb | E | F | Fsh | Gb | G | Gsh | Ab | A | Ash | Bb | B
  deriving DecidableEq, Repr

/-- Modelled from the external `pitch_calc` crate: a letter plus an octave. -/
structure LetterOctave where
  letter : Letter
  octave : ℤ
  deriving DecidableEq, Repr

/-- Modelled from the external `pitch_calc` crate: the semitone value of a
letter within its octave (enharmonics share a value). -/
def letterStep : Letter → ℤ
  | .C => 0 | .Csh => 1 | .Db => 1 | .D => 2 | .Dsh => 3 | .Eb => 3
  | .E => 4 | .F => 5 | .Fsh => 6 | .Gb => 6 | .G => 7 | .Gsh => 8
  | .Ab => 8 | .A => 9 | .Ash => 10 | .Bb => 10 | .B => 11

/-- Modelled from the external `pitch_calc` crate:
`LetterOctave::to_step().step()`.  (`pitch_calc` adds a constant octave
offset; it cancels in every use below, so octave `n` starts at step `12·n`.) -/
def toStep (lo : LetterOctave) : ℤ :=
  lo.octave * 12 + letterStep lo.letter

/-- Modelled from the external `pitch_calc` crate: the letter of a step
(sharp spelling). -/
def stepLetter (s : ℤ) : Letter :=
  match s.emod 12 with
  | 0 => .C | 1 => .Csh | 2 => .D | 3 => .Dsh | 4 => .E | 5 => .F
  | 6 => .Fsh | 7 => .G | 8 => .Gsh | 9 => .A | 10 => .Ash | _ => .B

/-- Modelled from the external `pitch_calc` crate:
`Step::to_letter_octave()` (sharp spelling). -/
def stepToLetterOctave (s : ℤ) : LetterOctave :=
  ⟨stepLetter s, s / 12⟩

/-- Modelled from the external `pitch_calc` crate: `Step::to_hz()`, i.e.
`440 · 2^((s - toStep A4)/12)` Hz, tabulated (4 decimals) for the steps
`toStep C2 .. toStep G#5` scanned by `get_note_wieghts`; `0` elsewhere
(unused). -/
def stepHz (s : ℤ) : ℚ :=
  match s with
  | 24 => 65.4064 | 25 => 69.2957 | 26 => 73.4162 | 27 => 77.7817
  | 28 => 82.4069 | 29 => 87.3071 | 30 => 92.4986 | 31 => 97.9989
  | 32 => 103.8262 | 33 => 110 | 34 => 116.5409 | 35 => 123.4708
  | 36 => 130.8128 | 37 => 138.5913 | 38 => 146.8324 | 39 => 155.5635
  | 40 => 164.8138 | 41 => 174.6141 | 42 => 184.9972 | 43 => 195.9977
  | 44 => 207.6523 | 45 => 220 | 46 => 233.0819 | 47 => 246.9417
  | 48 => 261.6256 | 49 => 277.1826 | 50 => 293.6648 | 51 => 311.1270
  | 52 => 329.6276 | 53 => 349.2282 | 54 => 369.9944 | 55 => 391.9954
  | 56 => 415.3047 | 57 => 440 | 58 => 466.1638 | 59 => 493.8833
  | 60 => 523.2511 | 61 => 554.3653 | 62 => 587.3295 | 63 => 622.2540
  | 64 => 659.2551 | 65 => 698.4565 | 66 => 739.9888 | 67 => 783.9909
  | 68 => 830.6094
  | _ => 0

/-- Floor on `ℚ` written out computably (`⌊x⌋ = x.num / x.den`, proved equal
to `Int.floor` in `ratFloor_eq_floor` below); used so that concrete
evaluations reduce. -/
def ratFloor (x : ℚ) : ℤ := x.num / x.den

/-- Source `src/pitch.rs` line 4: `(sample_rate / freq).round() as usize`.
Rust `f64::round` is round-half-away-from-zero, which agrees with
round-half-up (`⌊x + 1/2⌋`, see `samplesPerPeriod_eq_round`) on the
nonnegative quotients that occur; `as usize` clamps negative values
to `0`. -/
def samplesPerPeriod (sample_rate freq : ℚ) : ℕ :=
  (ratFloor (sample_rate / freq + 1 / 2)).toNat

/-- Source `src/pitch.rs` lines 3–9, `do_autocorrelation_with_freq`:
shift the buffer by `samplesPerPeriod` (iterator `skip` = `List.drop`),
zip with the original, accumulate absolute differences, and return
`1 - accum_dist / samples.len()`.  On the empty buffer the Rust code
computes `1.0 - 0.0/0.0 = NaN`, modelled here as `none`. -/
def do_autocorrelation_with_freq (samples : List ℚ) (sample_rate freq : ℚ) :
    Option ℚ :=
  let spp := samplesPerPeriod sample_rate freq
  let zipped := samples.zip (samples.drop spp)
  let accum_dist := zipped.foldl (fun acc p => acc + |p.1 - p.2|) 0
  if samples.length = 0 then none
  else some (1 - accum_dist / (samples.length : ℚ))

/-- Source `src/pitch.rs` lines 12–16: the endpoints of the scanned scale. -/
def first_tone : LetterOctave := ⟨Letter.C, 2⟩

/-- Source `src/pitch.rs` line 13. -/
def last_tone : LetterOctave := ⟨Letter.A, 5⟩

/-- Source `src/pitch.rs` line 15. -/
def first_semitone : ℤ := toStep first_tone

/-- Source `src/pitch.rs` line 16. -/
def last_semitone : ℤ := toStep last_tone

/-- The Rust half-open range `first_semitone..last_semitone` of
`src/pitch.rs` line 18, as a list of steps. -/
def noteRange : List ℤ :=
  (List.range (last_semitone - first_semitone).toNat).map
    (fun i => first_semitone + i)

/-- Source `src/pitch.rs` lines 11–31, `get_note_wieghts`: one
`(candidate note, autocorrelation score)` pair per step of the range. -/
def get_note_wieghts (samples : List ℚ) (sample_rate : ℚ) :
    List (LetterOctave × Option ℚ) :=
  noteRange.map (fun step =>
    (stepToLetterOctave step,
     do_autocorrelation_with_freq samples sample_rate (stepHz step)))

/-- The `weight > old_max_wight` comparison of `src/pitch.rs` line 38 on
(possibly NaN) `f64` values: any comparison involving NaN (`none`) is false. -/
def weightGt : Option ℚ → Option ℚ → Bool
  | some w, some m => decide (m < w)
  | _, _ => false

/-- Source `src/pitch.rs` lines 33–45, `get_dominant_note`: fold over the weighted
candidates, seeded with `(C2, -1.0)`, keeping a candidate only when its
weight is strictly greater than the running maximum. -/
def get_dominant_note (samples : List ℚ) (sample_rate : ℚ) : LetterOctave :=
  ((get_note_wieghts samples sample_rate).foldl
    (fun acc nw => if weightGt nw.2 acc.2 then nw else acc)
    (⟨Letter.C, 2⟩, some (-1))).1

/-- Modelled from the spec's words (§4.1): the candidate score is
`1 - (sum of |samples[i] - samples[i+shift]| over the overlapping region)
normalized by the length of the whole buffer`. -/
def specScore (samples : List ℚ) (shift : ℕ) : ℚ :=
  1 - (∑ i in Finset.range (samples.length - shift),
        |samples.getD i 0 - samples.getD (i + shift) 0|) / (samples.length : ℚ)

/-- The spec's candidate list: same scan order and shift
`round(sample_rate / candidate_frequency)` as the code, scores by
`specScore`. -/
def specWeights (samples : List ℚ) (sample_rate : ℚ) :
    List (LetterOctave × ℚ) :=
  noteRange.map (fun step =>
    (stepToLetterOctave step,
     specScore samples (samplesPerPeriod sample_rate (stepHz step))))

/-- Modelled from the spec's words (§4.1): `the candidate with the maximum
score wins; ties broken by first-encountered (scan order low→high)` — the
first candidate whose score is greater or equal to every candidate's score. -/
def specDominant (samples : List ℚ) (sample_rate : ℚ) : Option LetterOctave :=
  let cands := specWeights samples sample_rate
  (cands.find? (fun p => cands.all (fun q => decide (q.2 ≤ p.2)))).map Prod.fst

/-! ## Beat clock (`src/main.rs`) -/

/-- Source `src/main.rs` line 88: `let bpms = header.bpm / 60.0 / 1000.0;`. -/
def bpms (bpm : ℚ) : ℚ := bpm / 60 / 1000

/-- Source `src/main.rs` line 163:
`let beat = (position_ms - gap) * (bpms * 4.0);`. -/
def beat_at (position_ms gap bpm : ℚ) : ℚ :=
  (position_ms - gap) * (bpms bpm * 4)

/-! ## Notes and the highlight classification
(`src/main.rs` 479–531, `src/draw.rs` 263–315) -/

/-- The `ultrastar_txt::Note` variants (external parser output, fields as in
the `match` arms of `src/main.rs`): `Regular`/`Golden`/`Freestyle` carry
`start`, `duration`, `pitch` (`i32`) and `text`; `PlayerChange` carries a
player id. -/
inductive Note
  | Regular (start duration pitch : ℤ) (text : String)
  | Golden (start duration pitch : ℤ) (text : String)
  | Freestyle (start duration pitch : ℤ) (text : String)
  | PlayerChange (player : ℤ)
  deriving DecidableEq, Repr

/-- The `NoteType` enum of `src/main.rs` lines 472–477. -/
inductive NoteType
  | Regular
  | Golden
  | Freestyle
  deriving DecidableEq, Repr

/-- The common `match note { Regular {..} => (start, duration, pitch, text,
NoteType::..), .. , _ => continue }` destructuring used by the loops of
`line_to_corlor_str` and `draw_notelines`: `none` for `PlayerChange`. -/
def noteData : Note → Option (ℤ × ℤ × ℤ × String × NoteType)
  | .Regular s d p t => some (s, d, p, t, .Regular)
  | .Golden s d p t => some (s, d, p, t, .Golden)
  | .Freestyle s d p t => some (s, d, p, t, .Freestyle)
  | .PlayerChange _ => none

/-- The six `colored` stylings applied to lyric text in
`line_to_corlor_str`. -/
inductive TextColor
  | blackOnBrightYellow
  | blackOnBrightWhite
  | yellowFg
  | whiteFg
  | brightYellowFg
  | brightBlueFg
  deriving DecidableEq, Repr

/-- Source `src/main.rs` lines 479–531 (= `src/draw.rs` 263–315),
`line_to_corlor_str`: walk the line's notes, skip `PlayerChange`, and append
the note's text in the colour chosen by the nested
`beat >= start` / `(start + duration) >= beat` / `note_type == Golden`
conditionals.  The concatenated string is modelled as the list of
`(text, colour)` pieces in push order. -/
def line_to_corlor_str (line : List Note) (beat : ℚ) :
    List (String × TextColor) :=
  line.foldl (fun lyric note =>
    match noteData note with
    | none => lyric
    | some (start, duration, _pitch, text, note_type) =>
      if beat ≥ (start : ℚ) then
        if ((start + duration : ℤ) : ℚ) ≥ beat then
          if note_type = NoteType.Golden then
            lyric ++ [(text, TextColor.blackOnBrightYellow)]
          else lyric ++ [(text, TextColor.blackOnBrightWhite)]
        else
          if note_type = NoteType.Golden then
            lyric ++ [(text, TextColor.yellowFg)]
          else lyric ++ [(text, TextColor.whiteFg)]
      else
        if note_type = NoteType.Golden then
          lyric ++ [(text, TextColor.brightYellowFg)]
        else lyric ++ [(text, TextColor.brightBlueFg)]) []

/-- The three per-note highlight states of the spec's data model. -/
inductive HighlightState
  | Upcoming
  | Active
  | Played
  deriving DecidableEq, Repr

/-- The per-note highlight classification implemented by the shared branch
structure of `line_to_corlor_str` and `draw_notelines`:
`if beat >= start { if (start + duration) >= beat { Active } else
{ Played } } else { Upcoming }`. -/
def highlight (start duration : ℤ) (beat : ℚ) : HighlightState :=
  if beat ≥ (start : ℚ) then
    if ((start + duration : ℤ) : ℚ) ≥ beat then HighlightState.Active
    else HighlightState.Played
  else HighlightState.Upcoming

/-- The highlight states of a line's timed notes, in order (PlayerChange
markers are skipped by the loops' `_ => continue`). -/
def lineHighlights (line : List Note) (beat : ℚ) : List HighlightState :=
  line.filterMap (fun note =>
    (noteData note).map (fun d => highlight d.1 d.2.1 beat))

/-! ## Note-line layout (`src/main.rs` 224–420, `src/draw.rs` 32–226) -/

/-- Source `src/main.rs` lines 422–442, `letter_to_pos` (17 distinct rows). -/
def letter_to_pos : Letter → ℕ
  | .C => 0 | .Csh => 1 | .Db => 2 | .D => 3 | .Dsh => 4 | .Eb => 5
  | .E => 6 | .F => 7 | .Fsh => 8 | .Gb => 9 | .G => 10 | .Gsh => 11
  | .Ab => 12 | .A => 13 | .Ash => 14 | .Bb => 15 | .B => 16

/-- Rust `as usize` on a nonnegative-or-small `f32` value: truncate toward
zero (= floor for nonnegative values), clamping negatives to `0`. -/
def ratToUsize (x : ℚ) : ℕ := (ratFloor x).toNat

/-- Rust `as u16` on an `f32` value: truncate, clamping to `0..=65535`. -/
def ratToU16 (x : ℚ) : ℕ := min 65535 (ratFloor x).toNat

/-- The bar colourings used by `draw_notelines`. -/
inductive BarColor
  | yellow
  | brightYellow
  | brightBlue
  | white
  deriving DecidableEq, Repr

/-- One item pushed onto the output of `draw_notelines`: the top progress
bar (drawn at the origin), a coloured note bar of `#`s, or the pitch-letter
marker printed at the bar's position. -/
inductive RenderItem
  | progressBar (len : ℕ)
  | bar (hpos vpos len : ℕ) (color : BarColor)
  | letterMark (hpos vpos : ℕ) (letter : Letter)
  deriving DecidableEq, Repr

/-- Source `src/main.rs` lines 232–256: the start used for the line's first note —
note the `PlayerChange` placeholder `0`
(`// TODO: this is bad find better solution`). -/
def firstStartOf : Note → ℤ
  | .Regular s _ _ _ => s
  | .Golden s _ _ _ => s
  | .Freestyle s _ _ _ => s
  | .PlayerChange _ => 0

/-- Source `src/main.rs` lines 258–282: the `start + duration` used for the line's
last note — `PlayerChange` again yields the placeholder `0`. -/
def lastEndOf : Note → ℤ
  | .Regular s d _ _ => s + d
  | .Golden s d _ _ => s + d
  | .Freestyle s d _ _ => s + d
  | .PlayerChange _ => 0

/-- Body of the `for note in line.notes.iter()` loop of `draw_notelines`
(`src/main.rs` 286–417): skip `PlayerChange`; otherwise push the progress
bar (when `beat >= start` and `beat <= last_note_end`), then the note's
full bar, marked sub-bar (when Active) and letter marker, with the colours
of the source's Golden/other branches. -/
def drawNoteStep (first_note_start last_note_end : ℤ)
    (chars_per_beat beat : ℚ) (output : List RenderItem) (note : Note) :
    List RenderItem :=
  match noteData note with
  | none => output
  | some (start, duration, pitch, _text, note_type) =>
    let note_hpos :=
      ratToU16 (((start - first_note_start : ℤ) : ℚ) * chars_per_beat)
    let note_vpos := (2 + 17 * 2) - letter_to_pos (stepLetter pitch) * 2
    let fullLen := ratToUsize ((duration : ℚ) * chars_per_beat)
    if beat ≥ (start : ℚ) then
      let times := (beat - (start : ℚ)) * chars_per_beat
      let output :=
        if beat ≤ (last_note_end : ℚ) then
          output ++ [RenderItem.progressBar (ratToUsize times)]
        else output
      if ((start + duration : ℤ) : ℚ) ≥ beat then
        let marked := (beat - (start : ℚ)) * chars_per_beat
        if note_type = NoteType.Golden then
          output ++
            [RenderItem.bar note_hpos note_vpos fullLen BarColor.yellow,
             RenderItem.bar note_hpos note_vpos (ratToUsize marked)
               BarColor.brightYellow,
             RenderItem.letterMark note_hpos note_vpos (stepLetter pitch)]
        else
          output ++
            [RenderItem.bar note_hpos note_vpos fullLen BarColor.brightBlue,
             RenderItem.bar note_hpos note_vpos (ratToUsize marked)
               BarColor.white,
             RenderItem.letterMark note_hpos note_vpos (stepLetter pitch)]
      else
        if note_type = NoteType.Golden then
          output ++
            [RenderItem.bar note_hpos note_vpos fullLen BarColor.brightYellow,
             RenderItem.letterMark note_hpos note_vpos (stepLetter pitch)]
        else
          output ++
            [RenderItem.bar note_hpos note_vpos fullLen BarColor.white,
             RenderItem.letterMark note_hpos note_vpos (stepLetter pitch)]
    else
      if note_type = NoteType.Golden then
        output ++
          [RenderItem.bar note_hpos note_vpos fullLen BarColor.yellow,
           RenderItem.letterMark note_hpos note_vpos (stepLetter pitch)]
      else
        output ++
          [RenderItem.bar note_hpos note_vpos fullLen BarColor.brightBlue,
           RenderItem.letterMark note_hpos note_vpos (stepLetter pitch)]

/-- Source `src/main.rs` lines 224–420 (= `src/draw.rs` 32–226 up to the terminal
`Goto` origin offset), `draw_notelines`: error on a line with no
first/last note, otherwise compute
`chars_per_beat = term_width / (last_note_end - first_note_start)`
(unguarded `f32` division, modelled by rational division) and run the
per-note loop.  Output is the list of pushed render items. -/
def draw_notelines (line : List Note) (beat : ℚ) (term_width : ℕ) :
    Except String (List RenderItem) :=
  match line.head? with
  | none => Except.error "line has no first note???"
  | some firstNote =>
    match line.getLast? with
    | none => Except.error "line has no last note???"
    | some lastNote =>
      let first_note_start := firstStartOf firstNote
      let last_note_end := lastEndOf lastNote
      let chars_per_beat : ℚ :=
        (term_width : ℚ) / ((last_note_end - first_note_start : ℤ) : ℚ)
      Except.ok (line.foldl
        (drawNoteStep first_note_start last_note_end chars_per_beat beat) [])

/-- Modelled from the spec (§3): `first_start` = start of the first Note
with timing (Regular/Golden/Freestyle), skipping `PlayerChange`. -/
def firstTimedStart (line : List Note) : Option ℤ :=
  (line.filterMap (fun n => (noteData n).map (fun d => d.1))).head?

/-- Modelled from the spec (§3): `last_end` = start+duration of the last
Note with timing, skipping `PlayerChange`. -/
def lastTimedEnd (line : List Note) : Option ℤ :=
  (line.filterMap (fun n => (noteData n).map (fun d => d.1 + d.2.1))).getLast?

/-! ## Helper lemmas -/

theorem ratFloor_eq_floor (x : ℚ) : ratFloor x = ⌊x⌋ :=
  Rat.floor_def.symm

theorem samplesPerPeriod_eq_round (sample_rate freq : ℚ) :
    samplesPerPeriod sample_rate freq = (round (sample_rate / freq)).toNat := by
  rw [samplesPerPeriod, ratFloor_eq_floor, round_eq]

theorem weightGt_none (x : Option ℚ) : weightGt none x = false := by
  cases x <;> rfl

theorem foldl_dominant_none (l : List (LetterOctave × Option ℚ))
    (acc : LetterOctave × Option ℚ) (h : ∀ p ∈ l, p.2 = none) :
    l.foldl (fun acc nw => if weightGt nw.2 acc.2 then nw else acc) acc
      = acc := by
  induction l generalizing acc with
  | nil => rfl
  | cons p t ih =>
    rw [List.foldl_cons]
    have hp : p.2 = none := h p (List.mem_cons_self p t)
    rw [hp, weightGt_none]
    simp only [Bool.false_eq_true, if_false]
    exact ih acc (fun q hq => h q (List.mem_cons_of_mem p hq))

theorem autocorr_nil (sample_rate freq : ℚ) :
    do_autocorrelation_with_freq [] sample_rate freq = none := rfl

theorem dominant_nil (sample_rate : ℚ) :
    get_dominant_note [] sample_rate = ⟨Letter.C, 2⟩ := by
  rw [get_dominant_note, foldl_dominant_none]
  intro p hp
  rw [get_note_wieghts] at hp
  obtain ⟨step, _, rfl⟩ := List.mem_map.mp hp
  rfl

theorem weights_nil_all_none (sample_rate : ℚ) :
    ((get_note_wieghts [] sample_rate).map Prod.snd).all (·.isNone) = true := by
  rw [List.all_eq_true]
  intro o ho
  obtain ⟨p, hp, rfl⟩ := List.mem_map.mp ho
  rw [get_note_wieghts] at hp
  obtain ⟨step, _, rfl⟩ := List.mem_map.mp hp
  rfl

theorem map_fst_weights (samples : List ℚ) (sample_rate : ℚ) :
    (get_note_wieghts samples sample_rate).map Prod.fst
      = noteRange.map stepToLetterOctave := by
  rw [get_note_wieghts, List.map_map]
  rfl

theorem foldl_dominant_mem (l : List (LetterOctave × Option ℚ))
    (acc : LetterOctave × Option ℚ) :
    (l.foldl (fun acc nw => if weightGt nw.2 acc.2 then nw else acc) acc).1
        = acc.1 ∨
    (l.foldl (fun acc nw => if weightGt nw.2 acc.2 then nw else acc) acc).1
        ∈ l.map Prod.fst := by
  induction l generalizing acc with
  | nil => left; rfl
  | cons p t ih =>
    rw [List.foldl_cons, List.map_cons]
    by_cases hw : weightGt p.2 acc.2 = true
    · rw [if_pos hw]
      rcases ih p with h | h
      · right; rw [h]; exact List.mem_cons_self _ _
      · right; exact List.mem_cons_of_mem _ h
    · rw [if_neg hw]
      rcases ih acc with h | h
      · left; exact h
      · right; exact List.mem_cons_of_mem _ h

/-! ## Claim theorems -/

/-- C1: for a timed note with start `s` and (nonnegative) duration `d`, the
highlight classification of `line_to_corlor_str`/`draw_notelines` is
`Upcoming` for `beat < s`, `Active` for `s ≤ beat ≤ s + d` and `Played` for
`beat > s + d`; the rule is evaluated independently per note of the line, so
the line `{start 0, duration 4}, {start 4, duration 4}` at beat `2`
classifies as `[Active, Upcoming]`. -/
theorem c1_highlight_classification :
    (∀ (s d : ℤ) (b : ℚ), 0 ≤ d →
      (b < (s : ℚ) → highlight s d b = HighlightState.Upcoming) ∧
      ((s : ℚ) ≤ b ∧ b ≤ ((s + d : ℤ) : ℚ) →
        highlight s d b = HighlightState.Active) ∧
      (((s + d : ℤ) : ℚ) < b → highlight s d b = HighlightState.Played)) ∧
    lineHighlights [Note.Regular 0 4 60 "Hel", Note.Regular 4 4 62 "lo"] 2 =
      [HighlightState.Active, HighlightState.Upcoming] := by
  constructor
  · intro s d b hd
    refine ⟨fun h => ?_, fun h => ?_, fun h => ?_⟩
    · rw [highlight, if_neg (not_le.mpr h)]
    · rw [highlight, if_pos h.1, if_pos h.2]
    · have hs : (s : ℚ) ≤ b := by
        refine le_trans ?_ (le_of_lt h)
        exact_mod_cast le_add_of_nonneg_right hd
      rw [highlight, if_pos hs, if_neg (not_le.mpr h)]
  · decide

theorem c1_highlight_classification_witness :
    (0 : ℤ) ≤ 4 ∧
    highlight 0 4 (-1) = HighlightState.Upcoming ∧
    highlight 0 4 2 = HighlightState.Active ∧
    highlight 0 4 5 = HighlightState.Played ∧
    lineHighlights [Note.Regular 0 4 60 "Hel", Note.Regular 4 4 62 "lo"] 2 =
      [HighlightState.Active, HighlightState.Upcoming] :=
  ⟨by decide,
   (c1_highlight_classification.1 0 4 (-1) (by decide)).1 (by norm_num),
   (c1_highlight_classification.1 0 4 2 (by decide)).2.1 (by norm_num),
   (c1_highlight_classification.1 0 4 5 (by decide)).2.2 (by norm_num),
   c1_highlight_classification.2⟩

/-- C2 counterexample: a zero-duration note at `beat > start` is classified
`Played` by the code (the `(start + duration) >= beat` test fails), not
`Active` with progress 1 as the claim states. -/
theorem c2_counterexample : highlight 0 0 1 = HighlightState.Played := by
  decide

/-- C2 amended: for a note of duration `0`, `beat = start` is `Active` and
every `beat > start` is `Played`; no division by `duration` occurs anywhere
(the marked sub-bar of `draw_notelines` is `(beat - start) * chars_per_beat`,
computed without a progress ratio). -/
theorem c2_zero_duration : ∀ (s : ℤ) (b : ℚ),
    (b = (s : ℚ) → highlight s 0 b = HighlightState.Active) ∧
    ((s : ℚ) < b → highlight s 0 b = HighlightState.Played) := by
  intro s b
  constructor
  · intro h
    subst h
    rw [highlight, if_pos le_rfl, if_pos (by norm_num)]
  · intro h
    have h' : ((s + 0 : ℤ) : ℚ) < b := by simpa using h
    rw [highlight, if_pos (le_of_lt h), if_neg (not_le.mpr h')]

theorem c2_zero_duration_witness :
    highlight 3 0 3 = HighlightState.Active ∧
    highlight 3 0 4 = HighlightState.Played :=
  ⟨(c2_zero_duration 3 3).1 (by norm_num),
   (c2_zero_duration 3 4).2 (by norm_num)⟩

/-- C7: the beat mapping of the main loop equals
`(position_ms - gap_ms) * (beats_per_minute / 60000) * 4`; concretely
`beat_at 500 0 120 = 4`, and positions before the gap yield negative
beats. -/
theorem c7_beat_mapping : ∀ (position_ms gap bpm : ℚ),
    beat_at position_ms gap bpm = (position_ms - gap) * (bpm / 60000) * 4 ∧
    beat_at 500 0 120 = 4 ∧
    (position_ms < gap → 0 < bpm → beat_at position_ms gap bpm < 0) := by
  intro pos gap bpm
  refine ⟨?_, ?_, ?_⟩
  · rw [beat_at, bpms]; ring
  · norm_num [beat_at, bpms]
  · intro h1 h2
    rw [beat_at]
    apply mul_neg_of_neg_of_pos
    · linarith
    · rw [bpms]; positivity

theorem c7_beat_mapping_witness :
    beat_at 500 0 120 = 4 ∧ (10 : ℚ) < 20 ∧ (0 : ℚ) < 120 ∧
    beat_at 10 20 120 < 0 :=
  ⟨(c7_beat_mapping 500 0 120).2.1, by norm_num, by norm_num,
   (c7_beat_mapping 10 20 120).2.2 (by norm_num) (by norm_num)⟩

/-- C8: the layout derives `first_note_start`/`last_note_end` from the
*literal* first/last element of the note list (see `draw_notelines`), with a
`PlayerChange` placeholder of `0` (the source's
`// TODO: this is bad find better solution`); on a line whose first element
is a `PlayerChange` marker this is `0`, while the spec's derived
`first_start` (start of the first *timed* note) is `5`. -/
theorem c8_playerchange_placeholder :
    firstStartOf (Note.PlayerChange 1) = 0 ∧
    lastEndOf (Note.PlayerChange 1) = 0 ∧
    firstTimedStart [Note.PlayerChange 1, Note.Regular 5 2 3 "la"] = some 5 ∧
    lastTimedEnd [Note.Regular 5 2 3 "la", Note.PlayerChange 1] = some 7 ∧
    (0 : ℤ) ≠ 5 := by
  decide

/-- C3 counterexample: a degenerate line (`last_note_end = first_note_start`,
here a single zero-duration note at start 3) is not rejected:
`draw_notelines` divides unguardedly and returns `Ok`. -/
theorem c3_counterexample :
    (draw_notelines [Note.Regular 3 0 5 "x"] 0 80).isOk = true := by
  decide

/-- C3 amended: `draw_notelines` has no degenerate-line guard at all — it
returns `Ok` for every nonempty note list (its `chars_per_beat` division is
unguarded) and fails only when the note list is empty. -/
theorem c3_no_degenerate_guard : ∀ (line : List Note) (beat : ℚ) (w : ℕ),
    (draw_notelines line beat w).isOk = !line.isEmpty := by
  intro line beat w
  cases line with
  | nil => rfl
  | cons n t =>
    obtain ⟨m, hm⟩ := Option.isSome_iff_exists.mp
      (List.getLast?_isSome.mpr (List.cons_ne_nil n t))
    simp only [draw_notelines, List.head?_cons, hm, List.isEmpty_cons]
    rfl

theorem foldl_drawNoteStep_skip (f l : ℤ) (cpb beat : ℚ) (line : List Note)
    (out : List RenderItem) (h : ∀ n ∈ line, noteData n = none) :
    line.foldl (drawNoteStep f l cpb beat) out = out := by
  induction line generalizing out with
  | nil => rfl
  | cons n t ih =>
    rw [List.foldl_cons]
    have hn : noteData n = none := h n (List.mem_cons_self n t)
    rw [drawNoteStep, hn]
    exact ih out (fun q hq => h q (List.mem_cons_of_mem n hq))

/-- C9 counterexample: a line consisting of a single `PlayerChange` marker
(zero timed notes) is not rejected — `draw_notelines` silently renders it as
an empty output. -/
theorem c9_counterexample :
    draw_notelines [Note.PlayerChange 1] 0 80 = Except.ok [] := rfl

/-- C9 amended: only an *empty* note list is rejected; every nonempty line
whose notes are all `PlayerChange` markers (zero timed notes) renders
silently as `Ok` with empty output. -/
theorem c9_playerchange_only_rendered :
    ∀ (line : List Note) (beat : ℚ) (w : ℕ), line ≠ [] →
    (∀ n ∈ line, noteData n = none) →
    draw_notelines line beat w = Except.ok [] := by
  intro line beat w hne h
  cases line with
  | nil => exact absurd rfl hne
  | cons n t =>
    obtain ⟨m, hm⟩ := Option.isSome_iff_exists.mp
      (List.getLast?_isSome.mpr (List.cons_ne_nil n t))
    simp only [draw_notelines, List.head?_cons, hm]
    rw [foldl_drawNoteStep_skip _ _ _ _ _ _ h]

theorem c9_playerchange_only_rendered_witness :
    ([Note.PlayerChange 2] : List Note) ≠ [] ∧
    draw_notelines [Note.PlayerChange 2] 5 10 = Except.ok [] :=
  ⟨by decide, c9_playerchange_only_rendered [Note.PlayerChange 2] 5 10
    (by decide) (by decide)⟩

/-- C6 counterexample: the high endpoint A5 is *not* among the scanned
candidates (the Rust range `first_semitone..last_semitone` is half-open),
while the low endpoint C2 is. -/
theorem c6_counterexample :
    (⟨Letter.A, 5⟩ : LetterOctave) ∉
      (get_note_wieghts [] 1).map Prod.fst ∧
    (⟨Letter.C, 2⟩ : LetterOctave) ∈
      (get_note_wieghts [] 1).map Prod.fst := by
  constructor <;> rw [map_fst_weights] <;> decide

/-- C6 amended: the candidate scale has one candidate per semitone from C2
*inclusive* to A5 *exclusive* — 45 candidates, first C2, last G#5; A5 itself
is never scanned. -/
theorem c6_scale_excludes_high_endpoint : ∀ (samples : List ℚ) (rate : ℚ),
    ((get_note_wieghts samples rate).map Prod.fst).length = 45 ∧
    ((get_note_wieghts samples rate).map Prod.fst).head? =
      some ⟨Letter.C, 2⟩ ∧
    ((get_note_wieghts samples rate).map Prod.fst).getLast? =
      some ⟨Letter.Gsh, 5⟩ ∧
    (⟨Letter.A, 5⟩ : LetterOctave) ∉
      (get_note_wieghts samples rate).map Prod.fst := by
  intro samples rate
  rw [map_fst_weights]
  decide

/-- C4 counterexample: on the empty buffer the estimator does not fail with
any error — it returns the fold seed C2, with every candidate score the
undefined ratio `0/0` (NaN, modelled `none`). -/
theorem c4_counterexample :
    get_dominant_note [] 44100 = ⟨Letter.C, 2⟩ ∧
    ((get_note_wieghts [] 44100).map Prod.snd).all (·.isNone) = true :=
  ⟨dominant_nil 44100, weights_nil_all_none 44100⟩

/-- C4 amended: the estimator has no failure path. On the empty buffer it
returns the fold seed C2 (all scores undefined `0/0`); on a nonempty buffer
shorter than a candidate's shift, that candidate's overlap is empty (the
iterator model never indexes out of bounds) and its score is the
well-defined value `1`. -/
theorem c4_no_invalid_input_failure : ∀ (rate : ℚ),
    get_dominant_note [] rate = ⟨Letter.C, 2⟩ ∧
    ((get_note_wieghts [] rate).map Prod.snd).all (·.isNone) = true ∧
    (∀ (samples : List ℚ) (freq : ℚ), samples ≠ [] →
      samples.length ≤ samplesPerPeriod rate freq →
      do_autocorrelation_with_freq samples rate freq = some 1) := by
  intro rate
  refine ⟨dominant_nil rate, weights_nil_all_none rate, ?_⟩
  intro samples freq hne hlen
  have hdrop : samples.drop (samplesPerPeriod rate freq) = [] :=
    List.drop_eq_nil_of_le hlen
  simp only [do_autocorrelation_with_freq, hdrop, List.zip_nil_right,
    List.foldl_nil]
  rw [if_neg (fun hz => hne (List.length_eq_zero.mp hz)), zero_div, sub_zero]

theorem c4_no_invalid_input_failure_witness :
    get_dominant_note [] 44100 = ⟨Letter.C, 2⟩ ∧
    ([1] : List ℚ) ≠ [] ∧
    ([1] : List ℚ).length ≤ samplesPerPeriod 44100 440 ∧
    do_autocorrelation_with_freq [1] 44100 440 = some 1 :=
  ⟨(c4_no_invalid_input_failure 44100).1, by decide,
   by with_unfolding_all exact of_decide_eq_true rfl,
   (c4_no_invalid_input_failure 44100).2.2 [1] 440 (by decide)
     (by with_unfolding_all exact of_decide_eq_true rfl)⟩

/-- C10: for every buffer and positive rate, `get_dominant_note` returns
(totally — no panic, no out-of-bounds) a note of the scanned candidate
scale, and on the empty buffer, where every score is the undefined ratio
`0/0`, it returns the fold seed C2. -/
theorem c10_total_and_in_scale : ∀ (samples : List ℚ) (rate : ℚ), 0 < rate →
    get_dominant_note samples rate ∈
      (get_note_wieghts samples rate).map Prod.fst ∧
    get_dominant_note [] rate = ⟨Letter.C, 2⟩ := by
  intro samples rate _hr
  refine ⟨?_, dominant_nil rate⟩
  rcases foldl_dominant_mem (get_note_wieghts samples rate)
      (⟨Letter.C, 2⟩, some (-1)) with h | h
  · rw [get_dominant_note, h, map_fst_weights]
    decide
  · rw [get_dominant_note]
    exact h

theorem foldl_add_abs (zs : List (ℚ × ℚ)) (a : ℚ) :
    zs.foldl (fun acc p => acc + |p.1 - p.2|) a
      = a + (zs.map (fun p => |p.1 - p.2|)).sum := by
  induction zs generalizing a with
  | nil => simp
  | cons z t ih =>
    rw [List.foldl_cons, List.map_cons, List.sum_cons, ih, add_assoc]

theorem sum_map_zip (l m : List ℚ) :
    ((l.zip m).map (fun p => |p.1 - p.2|)).sum
      = ∑ i in Finset.range (min l.length m.length),
          |l.getD i 0 - m.getD i 0| := by
  induction l generalizing m with
  | nil => simp
  | cons x t ih =>
    cases m with
    | nil => simp
    | cons y u =>
      rw [List.zip_cons_cons, List.map_cons, List.sum_cons, ih u,
        List.length_cons, List.length_cons, Nat.succ_min_succ,
        Finset.sum_range_succ']
      simp only [List.getD_cons_succ, List.getD_cons_zero]
      exact add_comm _ _

theorem getD_drop (l : List ℚ) (n i : ℕ) :
    (l.drop n).getD i 0 = l.getD (n + i) 0 := by
  simp [List.getD_eq_getElem?_getD, List.getElem?_drop]

theorem getD_mem (l : List ℚ) (i : ℕ) (h : i < l.length) :
    l.getD i 0 ∈ l := by
  rw [List.getD_eq_getElem l 0 h]
  exact List.getElem_mem h

theorem autocorr_eq_spec (samples : List ℚ) (sample_rate freq : ℚ)
    (h : samples ≠ []) :
    do_autocorrelation_with_freq samples sample_rate freq
      = some (specScore samples (samplesPerPeriod sample_rate freq)) := by
  have hlen : samples.length ≠ 0 := fun hz => h (List.length_eq_zero.mp hz)
  simp only [do_autocorrelation_with_freq]
  rw [if_neg hlen, foldl_add_abs, zero_add, sum_map_zip, specScore]
  have h1 : min samples.length
      (samples.drop (samplesPerPeriod sample_rate freq)).length
      = samples.length - samplesPerPeriod sample_rate freq := by
    rw [List.length_drop]
    exact min_eq_right (Nat.sub_le _ _)
  rw [h1]
  have h2 : (∑ i in Finset.range
        (samples.length - samplesPerPeriod sample_rate freq),
      |samples.getD i 0 -
        (samples.drop (samplesPerPeriod sample_rate freq)).getD i 0|)
      = ∑ i in Finset.range
          (samples.length - samplesPerPeriod sample_rate freq),
          |samples.getD i 0 -
            samples.getD (i + samplesPerPeriod sample_rate freq) 0| :=
    Finset.sum_congr rfl (fun i _ => by
      rw [getD_drop samples (samplesPerPeriod sample_rate freq) i,
        Nat.add_comm (samplesPerPeriod sample_rate freq) i])
  rw [h2]

theorem specScore_gt_neg_one (samples : List ℚ) (shift : ℕ)
    (hne : samples ≠ []) (hbd : ∀ x ∈ samples, |x| ≤ 1) :
    -1 < specScore samples shift := by
  have hn : 0 < samples.length := List.length_pos.mpr hne
  have hnq : (0 : ℚ) < (samples.length : ℚ) := by exact_mod_cast hn
  rw [specScore]
  have key : (∑ i in Finset.range (samples.length - shift),
      |samples.getD i 0 - samples.getD (i + shift) 0|)
        < 2 * (samples.length : ℚ) := by
    cases shift with
    | zero =>
      have hzero : (∑ i in Finset.range (samples.length - 0),
          |samples.getD i 0 - samples.getD (i + 0) 0|) = 0 :=
        Finset.sum_eq_zero (fun i _ => by rw [Nat.add_zero, sub_self, abs_zero])
      rw [hzero]
      positivity
    | succ k =>
      have hterm : ∀ i ∈ Finset.range (samples.length - (k + 1)),
          |samples.getD i 0 - samples.getD (i + (k + 1)) 0| ≤ 2 := by
        intro i hi
        rw [Finset.mem_range] at hi
        have hi1 : i < samples.length := by omega
        have hi2 : i + (k + 1) < samples.length := by omega
        have b1 := hbd _ (getD_mem samples i hi1)
        have b2 := hbd _ (getD_mem samples _ hi2)
        have htri : |samples.getD i 0 - samples.getD (i + (k + 1)) 0|
            ≤ |samples.getD i 0| + |samples.getD (i + (k + 1)) 0| :=
          abs_sub _ _
        linarith
      have hsum := Finset.sum_le_card_nsmul _ _ 2 hterm
      rw [Finset.card_range, nsmul_eq_mul] at hsum
      have hcast : ((samples.length - (k + 1) : ℕ) : ℚ)
          ≤ (samples.length : ℚ) - 1 := by
        have hle : samples.length - (k + 1) ≤ samples.length - 1 := by omega
        calc ((samples.length - (k + 1) : ℕ) : ℚ)
            ≤ ((samples.length - 1 : ℕ) : ℚ) := by exact_mod_cast hle
          _ = (samples.length : ℚ) - 1 := by
              rw [Nat.cast_sub hn]
              norm_num
      nlinarith
  have hdiv : (∑ i in Finset.range (samples.length - shift),
      |samples.getD i 0 - samples.getD (i + shift) 0|) / (samples.length : ℚ)
        < 2 := (div_lt_iff₀ hnq).mpr (by linarith)
  linarith

theorem foldl_dominant_wrap (l : List (LetterOctave × ℚ))
    (a : LetterOctave) (m : ℚ) :
    (l.map (fun p => (p.1, some p.2))).foldl
        (fun acc nw => if weightGt nw.2 acc.2 then nw else acc) (a, some m)
      = ((l.foldl (fun acc p => if acc.2 < p.2 then p else acc) (a, m)).1,
         some ((l.foldl (fun acc p => if acc.2 < p.2 then p else acc)
           (a, m)).2)) := by
  induction l generalizing a m with
  | nil => rfl
  | cons p t ih =>
    rw [List.map_cons, List.foldl_cons, List.foldl_cons]
    by_cases h : m < p.2
    · have hgt : weightGt (some p.2) (some m) = true := by
        simp [weightGt, h]
      rw [if_pos hgt, if_pos h]
      exact ih p.1 p.2
    · have hgt : weightGt (some p.2) (some m) = false := by
        simp [weightGt, h]
      rw [if_neg (by rw [hgt]; exact Bool.false_ne_true), if_neg h]
      exact ih a m

theorem foldl_argmax_char (l : List (LetterOctave × ℚ)) (a₀ : LetterOctave)
    (m₀ : ℚ) :
    (l.foldl (fun acc p => if acc.2 < p.2 then p else acc) (a₀, m₀) = (a₀, m₀)
      ∧ ∀ p ∈ l, p.2 ≤ m₀) ∨
    (∃ i, ∃ hi : i < l.length,
      l.foldl (fun acc p => if acc.2 < p.2 then p else acc) (a₀, m₀)
          = l.get ⟨i, hi⟩ ∧
      m₀ < (l.get ⟨i, hi⟩).2 ∧
      (∀ j (hj : j < l.length), (l.get ⟨j, hj⟩).2 ≤ (l.get ⟨i, hi⟩).2) ∧
      (∀ j (hj : j < l.length), j < i →
        (l.get ⟨j, hj⟩).2 < (l.get ⟨i, hi⟩).2)) := by
  induction l generalizing a₀ m₀ with
  | nil => exact Or.inl ⟨rfl, by simp⟩
  | cons p t ih =>
    have hstep : (if (a₀, m₀).2 < p.2 then p else (a₀, m₀))
        = if m₀ < p.2 then p else (a₀, m₀) := rfl
    rw [List.foldl_cons, hstep]
    by_cases h : m₀ < p.2
    · rw [if_pos h]
      rcases ih p.1 p.2 with ⟨heq, hall⟩ | ⟨i, hi, heq, hm, hmax, hpre⟩
      · right
        refine ⟨0, Nat.succ_pos _, heq, h, ?_, ?_⟩
        · intro j hj
          cases j with
          | zero => exact le_refl _
          | succ k =>
            exact hall (t.get ⟨k, Nat.lt_of_succ_lt_succ hj⟩)
              (List.get_mem t k (Nat.lt_of_succ_lt_succ hj))
        · intro j hj hj0
          exact absurd hj0 (Nat.not_lt_zero j)
      · right
        refine ⟨i + 1, Nat.succ_lt_succ hi, heq, lt_trans h hm, ?_, ?_⟩
        · intro j hj
          cases j with
          | zero => exact le_of_lt hm
          | succ k => exact hmax k (Nat.lt_of_succ_lt_succ hj)
        · intro j hj hji
          cases j with
          | zero => exact hm
          | succ k =>
            exact hpre k (Nat.lt_of_succ_lt_succ hj) (Nat.lt_of_succ_lt_succ hji)
    · rw [if_neg h]
      rcases ih a₀ m₀ with ⟨heq, hall⟩ | ⟨i, hi, heq, hm, hmax, hpre⟩
      · left
        refine ⟨heq, ?_⟩
        intro q hq
        rcases List.mem_cons.mp hq with rfl | hq'
        · exact not_lt.mp h
        · exact hall q hq'
      · right
        refine ⟨i + 1, Nat.succ_lt_succ hi, heq, hm, ?_, ?_⟩
        · intro j hj
          cases j with
          | zero => exact le_of_lt (lt_of_le_of_lt (not_lt.mp h) hm)
          | succ k => exact hmax k (Nat.lt_of_succ_lt_succ hj)
        · intro j hj hji
          cases j with
          | zero => exact lt_of_le_of_lt (not_lt.mp h) hm
          | succ k =>
            exact hpre k (Nat.lt_of_succ_lt_succ hj) (Nat.lt_of_succ_lt_succ hji)

theorem find?_eq_of_first (l : List (LetterOctave × ℚ))
    (pr : LetterOctave × ℚ → Bool) (i : ℕ) (hi : i < l.length)
    (hp : pr (l.get ⟨i, hi⟩) = true)
    (hprev : ∀ j (hj : j < l.length), j < i → pr (l.get ⟨j, hj⟩) = false) :
    l.find? pr = some (l.get ⟨i, hi⟩) := by
  induction l generalizing i with
  | nil => exact absurd hi (Nat.not_lt_zero i)
  | cons x t ih =>
    cases i with
    | zero => exact List.find?_cons_of_pos _ hp
    | succ n =>
      have hx : pr x = false := hprev 0 (Nat.succ_pos _) (Nat.succ_pos n)
      rw [List.find?_cons_of_neg _ (by simp [hx])]
      exact ih n (Nat.lt_of_succ_lt_succ hi) hp
        (fun j hj hji => hprev (j + 1) (Nat.succ_lt_succ hj)
          (Nat.succ_lt_succ hji))

theorem weights_eq_spec (samples : List ℚ) (sample_rate : ℚ)
    (h : samples ≠ []) :
    get_note_wieghts samples sample_rate
      = (specWeights samples sample_rate).map (fun p => (p.1, some p.2)) := by
  rw [get_note_wieghts, specWeights, List.map_map]
  exact List.map_congr_left (fun step _ =>
    congrArg (Prod.mk (stepToLetterOctave step))
      (autocorr_eq_spec samples sample_rate (stepHz step) h))

set_option maxRecDepth 100000 in
/-- C5 counterexample: on a buffer with samples outside `[-1, 1]` every
candidate score drops below the fold seed `-1.0`, so `get_dominant_note`
returns the seed C2 even though the maximal-score candidate (per the spec's
own scoring formula, first-encountered tie-break) is C#5. -/
theorem c5_counterexample :
    get_dominant_note [0, 10, 20, 30, 40, 50, 60, 70, 80, 90, 100, 110,
        120, 130] 800 = ⟨Letter.C, 2⟩ ∧
    specDominant [0, 10, 20, 30, 40, 50, 60, 70, 80, 90, 100, 110,
        120, 130] 800 = some ⟨Letter.Csh, 5⟩ ∧
    (⟨Letter.C, 2⟩ : LetterOctave) ≠ ⟨Letter.Csh, 5⟩ := by
  refine ⟨?_, ?_, by decide⟩ <;> with_unfolding_all rfl

/-- C5 amended: for every *nonempty* buffer of samples within the amplitude
contract `[-1, 1]` (where every candidate score exceeds the fold seed
`-1.0`), `get_dominant_note` returns exactly the spec's winner: the
candidate of maximal score `1 - (Σ |samples[i] - samples[i+shift]|) / len`
with `shift = round(rate / freq)`, ties broken by the first-encountered
candidate in low→high scan order. -/
theorem c5_argmax : ∀ (samples : List ℚ) (sample_rate : ℚ), samples ≠ [] →
    (∀ x ∈ samples, |x| ≤ 1) →
    some (get_dominant_note samples sample_rate)
      = specDominant samples sample_rate := by
  intro samples rate hne hbd
  have hgd : get_dominant_note samples rate
      = ((specWeights samples rate).foldl
          (fun acc p => if acc.2 < p.2 then p else acc)
          (⟨Letter.C, 2⟩, (-1 : ℚ))).1 := by
    rw [get_dominant_note, weights_eq_spec samples rate hne,
      foldl_dominant_wrap]
  have hsc : ∀ p ∈ specWeights samples rate, (-1 : ℚ) < p.2 := by
    intro p hp
    rw [specWeights] at hp
    obtain ⟨step, _hstep, rfl⟩ := List.mem_map.mp hp
    exact specScore_gt_neg_one samples _ hne hbd
  rcases foldl_argmax_char (specWeights samples rate) ⟨Letter.C, 2⟩ (-1) with
    ⟨_heq, hall⟩ | ⟨i, hi, heq, _hm, hmax, hpre⟩
  · exfalso
    have hlen45 : (specWeights samples rate).length = 45 := by
      rw [specWeights, List.length_map]
      decide
    have hLne : specWeights samples rate ≠ [] := by
      intro hnil
      rw [hnil] at hlen45
      exact absurd hlen45 (by decide)
    obtain ⟨q, hq⟩ := List.exists_mem_of_ne_nil _ hLne
    exact absurd (hall q hq) (not_le.mpr (hsc q hq))
  · have hfind : (specWeights samples rate).find?
        (fun p => (specWeights samples rate).all
          (fun q => decide (q.2 ≤ p.2)))
        = some ((specWeights samples rate).get ⟨i, hi⟩) := by
      apply find?_eq_of_first
      · rw [List.all_eq_true]
        intro q hq
        obtain ⟨⟨j, hj⟩, rfl⟩ := List.mem_iff_get.mp hq
        exact decide_eq_true (hmax j hj)
      · intro j hj hji
        refine Bool.eq_false_iff.mpr (fun hc => ?_)
        have hq := List.all_eq_true.mp hc
          ((specWeights samples rate).get ⟨i, hi⟩) (List.get_mem _ i hi)
        rw [decide_eq_true_eq] at hq
        exact absurd hq (not_le.mpr (hpre j hj hji))
    rw [hgd, heq, specDominant]
    simp only [hfind, Option.map_some']

theorem c5_argmax_witness :
    ([0] : List ℚ) ≠ [] ∧ (∀ x ∈ ([0] : List ℚ), |x| ≤ 1) ∧
    some (get_dominant_note [0] 100) = specDominant [0] 100 :=
  ⟨by decide, by decide, c5_argmax [0] 100 (by decide) (by decide)⟩

theorem c10_total_and_in_scale_witness :
    (0 : ℚ) < 44100 ∧
    get_dominant_note [1, 0] 44100 ∈
      (get_note_wieghts [1, 0] 44100).map Prod.fst ∧
    get_dominant_note [] 44100 = ⟨Letter.C, 2⟩ :=
  ⟨by norm_num, (c10_total_and_in_scale [1, 0] 44100 (by norm_num)).1,
   (c10_total_and_in_scale [1, 0] 44100 (by norm_num)).2⟩

end AsciiStar
